import Mathlib

/-!
Verification of the message chunking / delivery logic and of the execution
wrapper of the LLM-agent repository.

Strings are modelled as `List Char` (a Python `str` is a sequence of code
points).  `splitLines` is Python's `str.split('\n')`, `hardSplit` is the
slice loop `for i in range(0, len(line), MAX_MESSAGE_LENGTH - 100)`, and
`splitMessage` is `TelegramNotifier._split_message` from
`src/telegram_notifier.py`.
-/

namespace LLMAgent

/-- Telegram's per-message limit (`TelegramNotifier.MAX_MESSAGE_LENGTH`). -/
def MAX_MESSAGE_LENGTH : Nat := 4096

/-- Python `message.split('\n')`: split on every newline, keeping empty
pieces; the empty string yields `[""]`. -/
def splitLines : List Char → List (List Char)
  | [] => [[]]
  | c :: rest =>
    if c = '\n' then [] :: splitLines rest
    else
      match splitLines rest with
      | [] => [[c]]
      | l :: ls => (c :: l) :: ls

/-- The hard-split loop of `_split_message`:
`for i in range(0, len(line), self.MAX_MESSAGE_LENGTH - 100):
    chunks.append(line[i:i + self.MAX_MESSAGE_LENGTH - 100])`. -/
def hardSplit (l : List Char) : List (List Char) :=
  if h : l = [] then []
  else
    l.take (MAX_MESSAGE_LENGTH - 100) ::
      hardSplit (l.drop (MAX_MESSAGE_LENGTH - 100))
termination_by l.length
decreasing_by
  have h1 : 0 < l.length := List.length_pos.mpr h
  simp [List.length_drop, MAX_MESSAGE_LENGTH]
  omega

/-- The body of the `for line in lines:` loop of `_split_message`; the
accumulator is the pair `(chunks, current_chunk)`. -/
def splitStep (acc : List (List Char) × List Char) (line : List Char) :
    List (List Char) × List Char :=
  if line.length > MAX_MESSAGE_LENGTH then
    ((if acc.2 = [] then acc.1 else acc.1 ++ [acc.2]) ++ hardSplit line, [])
  else if acc.2.length + line.length + 1 > MAX_MESSAGE_LENGTH then
    (acc.1 ++ [acc.2], line)
  else
    (acc.1, acc.2 ++ (if acc.2 = [] then [] else ['\n']) ++ line)

/-- The trailing `if current_chunk: chunks.append(current_chunk)` of
`_split_message`, applied to the final loop state. -/
def finalizeChunks (st : List (List Char) × List Char) : List (List Char) :=
  if st.2 = [] then st.1 else st.1 ++ [st.2]

/-- `TelegramNotifier._split_message` (src/telegram_notifier.py, lines
93-135). -/
def splitMessage (message : List Char) : List (List Char) :=
  if message.length ≤ MAX_MESSAGE_LENGTH then [message]
  else finalizeChunks ((splitLines message).foldl splitStep ([], []))

/-- Outcome of one transport call (`bot.send_message`): success, or a
`TelegramError` carrying its message text. -/
inductive SendOutcome
  | ok
  | err (msg : List Char)
deriving DecidableEq

/-- The text `can't parse` (the apostrophe written as `Char.ofNat 39`). -/
def cantParseText : List Char :=
  ['c', 'a', 'n', Char.ofNat 39, 't', ' ', 'p', 'a', 'r', 's', 'e']

/-- Python `"can't parse" in str(e).lower()`. -/
def containsCantParse (e : List Char) : Bool :=
  (e.map Char.toLower).tails.any fun t => cantParseText.isPrefixOf t

/-- Observable transport actions of `send_message`: one `bot.send_message`
call (chunk index, chunk, parse mode, and whether it is the plain-text
retry of the markup-parse fallback), or one `asyncio.sleep`. -/
inductive Event
  | sendEv (i : Nat) (chunk : List Char) (parseMode : Option String)
      (retry : Bool)
  | sleepEv (seconds : Nat)
deriving DecidableEq

/-- Is this event the plain-text retry of a chunk? -/
def isRetryEv : Event → Bool
  | Event.sendEv _ _ _ r => r
  | Event.sleepEv _ => false

/-- The `for i, chunk in enumerate(chunks)` loop of `send_message`
(src/telegram_notifier.py, lines 60-87), parameterised by the transport
behaviour `beh` (outcome per chunk index, separately for the primary call
and the plain-text retry).  Returns the list of transport events and the
Boolean the loop produces: a primary failure whose text contains
`can't parse` triggers one retry with `parse_mode=None` (and no sleep); a
retry failure or any other failure aborts the remaining chunks with
result `False` (the outer `except` of `send_message`). -/
def sendChunks (beh : Nat → Bool → SendOutcome) (pm : Option String)
    (total : Nat) : Nat → List (List Char) → List Event × Bool
  | _, [] => ([], true)
  | i, c :: rest =>
    match beh i false with
    | SendOutcome.ok =>
      (Event.sendEv i c pm false ::
        ((if i < total - 1 then [Event.sleepEv 1] else []) ++
          (sendChunks beh pm total (i + 1) rest).1),
        (sendChunks beh pm total (i + 1) rest).2)
    | SendOutcome.err e =>
      if containsCantParse e then
        match beh i true with
        | SendOutcome.ok =>
          (Event.sendEv i c pm false :: Event.sendEv i c none true ::
            (sendChunks beh pm total (i + 1) rest).1,
            (sendChunks beh pm total (i + 1) rest).2)
        | SendOutcome.err _ =>
          ([Event.sendEv i c pm false, Event.sendEv i c none true], false)
      else ([Event.sendEv i c pm false], false)

/-- `TelegramNotifier.send_message` (src/telegram_notifier.py, lines
39-91): split the message, then deliver the chunks in order.  The model is
a total function — the outer `try/except` of `send_message` converts every
exception into the return value `False`, so no exception ever reaches the
caller. -/
def send_message (beh : Nat → Bool → SendOutcome) (pm : Option String)
    (message : List Char) : List Event × Bool :=
  sendChunks beh pm (splitMessage message).length 0 (splitMessage message)

/-- Chunk `i` is accepted by the transport: the primary send succeeds, or
it fails with a markup-parse error and the plain-text retry succeeds. -/
def accepted (beh : Nat → Bool → SendOutcome) (i : Nat) : Prop :=
  beh i false = SendOutcome.ok ∨
    ∃ e, beh i false = SendOutcome.err e ∧ containsCantParse e = true ∧
      beh i true = SendOutcome.ok

/-- The event trace of a run of consecutive chunks whose primary sends all
succeed: one send per chunk, one 1-second sleep after every chunk except
the final chunk of the whole message. -/
def okTrace (pm : Option String) (total : Nat) :
    Nat → List (List Char) → List Event
  | _, [] => []
  | i, c :: rest =>
    Event.sendEv i c pm false ::
      ((if i < total - 1 then [Event.sleepEv 1] else []) ++
        okTrace pm total (i + 1) rest)

/-- A transport in which the primary send of chunk 0 fails with a
markup-parse error and every other call succeeds. -/
def behParseFailFirst : Nat → Bool → SendOutcome := fun i r =>
  if i = 0 ∧ r = false then SendOutcome.err cantParseText else SendOutcome.ok

/-- A transport in which every call succeeds. -/
def behAllOk : Nat → Bool → SendOutcome := fun _ _ => SendOutcome.ok

/-- `CrewExecutionResult` (src/models.py, lines 34-41); the float
`execution_time_seconds` is modelled as a rational, and the opaque
`timestamp` (a `datetime` default) is omitted. -/
structure CrewExecutionResult where
  execution_id : String
  status : String
  report : String := ""
  error : Option String := none
  execution_time_seconds : ℚ := 0

/-- `MentalHealthResearchCrew.execute` (src/crew.py, lines 159-200).
`kickoff` is the outcome of `self.crew.kickoff()`: `.ok r` when the call
returns `r` (with `str(result) = r`), `.error e` when it raises an
exception whose text is `e`.  `start` and `finish` are the two wall-clock
readings of `time.time()`, and `nowId` is `int(time.time())` used for the
execution id.  The wrapper is a total function: every outcome, including
an exception from the kickoff, yields a result record — no exception is
re-raised to the caller. -/
def execute (nowId : Int) (start finish : ℚ)
    (kickoff : Except String String) : CrewExecutionResult :=
  match kickoff with
  | Except.ok result =>
    { execution_id := "exec_" ++ toString nowId
      status := "success"
      report := result
      error := none
      execution_time_seconds := finish - start }
  | Except.error e =>
    { execution_id := "exec_" ++ toString nowId
      status := "failure"
      report := ""
      error := some ("Crew execution failed: " ++ e)
      execution_time_seconds := finish - start }

/-- `MentalHealthResearchCrew.execute_async` (src/crew.py, lines 202-243):
identical to `execute` except for the error-message prefix. -/
def execute_async (nowId : Int) (start finish : ℚ)
    (kickoff : Except String String) : CrewExecutionResult :=
  match kickoff with
  | Except.ok result =>
    { execution_id := "exec_" ++ toString nowId
      status := "success"
      report := result
      error := none
      execution_time_seconds := finish - start }
  | Except.error e =>
    { execution_id := "exec_" ++ toString nowId
      status := "failure"
      report := ""
      error := some ("Async crew execution failed: " ++ e)
      execution_time_seconds := finish - start }

/-- `Reconstructs cs m`: the chunks `cs`, re-joined in order with either a
newline (where the split happened at a line boundary) or nothing (where a
long line was hard-split) between consecutive chunks, rebuild exactly the
text `m`. -/
inductive Reconstructs : List (List Char) → List Char → Prop
  | single (c : List Char) : Reconstructs [c] c
  | cons_nl (c : List Char) {cs : List (List Char)} {m : List Char} :
      Reconstructs cs m → Reconstructs (c :: cs) (c ++ '\n' :: m)
  | cons_cat (c : List Char) {cs : List (List Char)} {m : List Char} :
      Reconstructs cs m → Reconstructs (c :: cs) (c ++ m)

/-- The inverse of `splitLines`: re-join lines with a newline. -/
def unsplitLines : List (List Char) → List Char
  | [] => []
  | [l] => l
  | l :: ls => l ++ '\n' :: unsplitLines ls

/-- Loop invariant for the reconstruction property of `_split_message`:
the loop state `(chunks, current_chunk)` reconstructs the lines already
consumed. -/
def ReconInv (st : List (List Char) × List Char)
    (done : List (List Char)) : Prop :=
  (st.1 = [] ∧ st.2 = [] ∧ done = []) ∨
    (done ≠ [] ∧ st.2 ≠ [] ∧
      Reconstructs (st.1 ++ [st.2]) (unsplitLines done)) ∨
    (done ≠ [] ∧ st.2 = [] ∧ st.1 ≠ [] ∧
      Reconstructs st.1 (unsplitLines done))

/-- Every piece produced by the hard-split loop has length at most
`MAX_MESSAGE_LENGTH - 100`. -/
theorem hardSplit_piece_le :
    ∀ n (l : List Char), l.length ≤ n →
      ∀ c ∈ hardSplit l, c.length ≤ MAX_MESSAGE_LENGTH - 100 := by
  intro n
  induction n with
  | zero =>
    intro l hl c hc
    have : l = [] := List.eq_nil_of_length_eq_zero (Nat.le_zero.mp hl)
    subst this
    rw [hardSplit] at hc
    simp at hc
  | succ n ih =>
    intro l hl c hc
    rw [hardSplit] at hc
    by_cases h : l = []
    · simp [h] at hc
    · simp only [h, dif_neg, not_false_iff] at hc
      rcases List.mem_cons.mp hc with h1 | h1
      · subst h1
        simp
      · have hp : 0 < l.length := List.length_pos.mpr h
        exact ih (l.drop (MAX_MESSAGE_LENGTH - 100))
          (by simp only [List.length_drop, MAX_MESSAGE_LENGTH] at *; omega) c h1

/-- One step of the chunking loop preserves the bound `≤ MAX_MESSAGE_LENGTH`
on every accumulated chunk and on the current chunk. -/
theorem splitStep_le (acc : List (List Char) × List Char) (line : List Char)
    (h1 : ∀ c ∈ acc.1, c.length ≤ MAX_MESSAGE_LENGTH)
    (h2 : acc.2.length ≤ MAX_MESSAGE_LENGTH) :
    (∀ c ∈ (splitStep acc line).1, c.length ≤ MAX_MESSAGE_LENGTH) ∧
      (splitStep acc line).2.length ≤ MAX_MESSAGE_LENGTH := by
  unfold splitStep
  split
  · rename_i hlong
    constructor
    · intro c hc
      simp only [List.mem_append] at hc
      rcases hc with hc | hc
      · split at hc
        · exact h1 c hc
        · rcases List.mem_append.mp hc with hc | hc
          · exact h1 c hc
          · simp at hc; subst hc; exact h2
      · have := hardSplit_piece_le line.length line le_rfl c hc
        omega
    · simp
  · split
    · rename_i hshort hover
      constructor
      · intro c hc
        rcases List.mem_append.mp hc with hc | hc
        · exact h1 c hc
        · simp at hc; subst hc; exact h2
      · simpa using Nat.le_of_not_lt hshort
    · rename_i hshort hfits
      refine ⟨h1, ?_⟩
      simp only [List.length_append]
      split
      · simp_all
      · simp_all
        omega

/-- The chunking loop, started from a state satisfying the bound, ends in a
state satisfying the bound. -/
theorem splitStep_fold_le (lines : List (List Char)) :
    ∀ acc : List (List Char) × List Char,
      (∀ c ∈ acc.1, c.length ≤ MAX_MESSAGE_LENGTH) →
      acc.2.length ≤ MAX_MESSAGE_LENGTH →
      (∀ c ∈ (lines.foldl splitStep acc).1, c.length ≤ MAX_MESSAGE_LENGTH) ∧
        (lines.foldl splitStep acc).2.length ≤ MAX_MESSAGE_LENGTH := by
  induction lines with
  | nil => intro acc h1 h2; exact ⟨h1, h2⟩
  | cons l ls ih =>
    intro acc h1 h2
    have := splitStep_le acc l h1 h2
    exact ih (splitStep acc l) this.1 this.2

/-- C2: every chunk returned by `_split_message` has length at most
`MAX_MESSAGE_LENGTH = 4096`. -/
theorem splitMessage_chunk_le (message c : List Char)
    (h : c ∈ splitMessage message) : c.length ≤ MAX_MESSAGE_LENGTH := by
  unfold splitMessage at h
  split at h
  · rename_i hshort
    simp at h
    subst h
    exact hshort
  · have hinv := splitStep_fold_le (splitLines message) ([], [])
      (by simp) (by simp)
    unfold finalizeChunks at h
    split at h
    · exact hinv.1 c h
    · rcases List.mem_append.mp h with hc | hc
      · exact hinv.1 c hc
      · simp at hc; subst hc; exact hinv.2

/-- Witness for C2: the single chunk of the message `"ab"` obeys the bound. -/
theorem splitMessage_chunk_le_witness :
    (['a', 'b'] : List Char).length ≤ MAX_MESSAGE_LENGTH :=
  splitMessage_chunk_le ['a', 'b'] ['a', 'b'] (by decide)

/-- `str.split` never returns an empty list of lines. -/
theorem splitLines_ne_nil (s : List Char) : splitLines s ≠ [] := by
  cases s with
  | nil => simp [splitLines]
  | cons c rest =>
    unfold splitLines
    split
    · simp
    · split <;> simp

/-- A message without a newline is its own single line. -/
theorem splitLines_no_newline (s : List Char) (h : '\n' ∉ s) :
    splitLines s = [s] := by
  induction s with
  | nil => rfl
  | cons c rest ih =>
    have hc : ¬c = '\n' := fun he => h (by simp [he])
    have hr : '\n' ∉ rest := fun hm => h (List.mem_cons_of_mem _ hm)
    unfold splitLines
    rw [if_neg hc, ih hr]

/-- The hard-split of the empty line is the empty list of pieces. -/
theorem hardSplit_nil : hardSplit [] = [] := by
  rw [hardSplit]
  simp

/-- The hard-split pieces concatenate back to the original line. -/
theorem hardSplit_join :
    ∀ n (l : List Char), l.length ≤ n → (hardSplit l).flatten = l := by
  intro n
  induction n with
  | zero =>
    intro l hl
    have : l = [] := List.eq_nil_of_length_eq_zero (Nat.le_zero.mp hl)
    subst this
    rw [hardSplit]
    simp
  | succ n ih =>
    intro l hl
    rw [hardSplit]
    by_cases h : l = []
    · simp [h]
    · have hp : 0 < l.length := List.length_pos.mpr h
      have hd := ih (l.drop (MAX_MESSAGE_LENGTH - 100))
        (by simp only [List.length_drop, MAX_MESSAGE_LENGTH] at *; omega)
      simp [h, hd, List.take_append_drop]

/-- The hard-split of a non-empty line has exactly
`ceil (len / (MAX_MESSAGE_LENGTH - 100))` pieces. -/
theorem hardSplit_count :
    ∀ n (l : List Char), l.length ≤ n → l ≠ [] →
      (hardSplit l).length =
        (l.length + (MAX_MESSAGE_LENGTH - 100) - 1) /
          (MAX_MESSAGE_LENGTH - 100) := by
  intro n
  induction n with
  | zero =>
    intro l hl h
    exact absurd (List.eq_nil_of_length_eq_zero (Nat.le_zero.mp hl)) h
  | succ n ih =>
    intro l hl h
    have hp : 0 < l.length := List.length_pos.mpr h
    rw [hardSplit]
    simp only [h, dif_neg, not_false_iff, List.length_cons]
    by_cases hk : l.length ≤ MAX_MESSAGE_LENGTH - 100
    · have hde : l.drop (MAX_MESSAGE_LENGTH - 100) = [] := by
        apply List.eq_nil_of_length_eq_zero
        simp only [List.length_drop]
        omega
      rw [hde, hardSplit_nil]
      simp only [List.length_nil, MAX_MESSAGE_LENGTH] at *
      omega
    · have hdp : l.drop (MAX_MESSAGE_LENGTH - 100) ≠ [] := by
        intro he
        have := congrArg List.length he
        simp only [List.length_drop, List.length_nil] at this
        omega
      have hd := ih (l.drop (MAX_MESSAGE_LENGTH - 100))
        (by simp only [List.length_drop, MAX_MESSAGE_LENGTH] at *; omega) hdp
      rw [hd]
      simp only [List.length_drop, MAX_MESSAGE_LENGTH] at *
      omega

/-- A message that is one single line longer than the limit goes through
the hard-split loop only: `_split_message` returns exactly its pieces. -/
theorem splitMessage_eq_hardSplit (msg : List Char)
    (hnl : '\n' ∉ msg) (hlen : MAX_MESSAGE_LENGTH < msg.length) :
    splitMessage msg = hardSplit msg := by
  unfold splitMessage
  rw [if_neg (by omega), splitLines_no_newline msg hnl]
  simp only [List.foldl_cons, List.foldl_nil]
  unfold splitStep
  rw [if_pos (by simpa using hlen)]
  simp [finalizeChunks]

/-- The 4097-character single line `aa…a` splits into its two hard-split
pieces of 3996 and 101 characters. -/
theorem splitMessage_rep4097 :
    splitMessage (List.replicate 4097 'a') =
      [List.replicate 3996 'a', List.replicate 101 'a'] := by
  have hnl : '\n' ∉ List.replicate 4097 'a' := by
    rw [List.mem_replicate]
    rintro ⟨-, h⟩
    exact absurd h (by decide)
  have hlen : MAX_MESSAGE_LENGTH < (List.replicate 4097 'a').length := by
    rw [List.length_replicate]
    unfold MAX_MESSAGE_LENGTH
    omega
  have hne1 : List.replicate 4097 'a' ≠ ([] : List Char) := by
    rw [Ne, List.replicate_eq_nil_iff]
    omega
  have hne2 : List.replicate 101 'a' ≠ ([] : List Char) := by
    rw [Ne, List.replicate_eq_nil_iff]
    omega
  have h1 : (List.replicate 4097 'a').take (MAX_MESSAGE_LENGTH - 100) =
      List.replicate 3996 'a' := by
    rw [List.take_replicate]
    norm_num [MAX_MESSAGE_LENGTH]
  have h2 : (List.replicate 4097 'a').drop (MAX_MESSAGE_LENGTH - 100) =
      List.replicate 101 'a' := by
    rw [List.drop_replicate]
    norm_num [MAX_MESSAGE_LENGTH]
  have h3 : (List.replicate 101 'a').take (MAX_MESSAGE_LENGTH - 100) =
      List.replicate 101 'a' := by
    rw [List.take_replicate]
    norm_num [MAX_MESSAGE_LENGTH]
  have h4 : (List.replicate 101 'a').drop (MAX_MESSAGE_LENGTH - 100) =
      ([] : List Char) := by
    rw [List.drop_replicate]
    norm_num [MAX_MESSAGE_LENGTH]
  rw [splitMessage_eq_hardSplit _ hnl hlen]
  rw [hardSplit, dif_neg hne1, h1, h2]
  rw [hardSplit, dif_neg hne2, h3, h4, hardSplit_nil]

/-- C5: a message that is one single line longer than the limit is
hard-split into exactly `ceil (len / (limit - 100))` pieces, each of length
at most `limit - 100 = 3996`, whose in-order concatenation is the original
line. -/
theorem splitMessage_single_long_line (msg : List Char)
    (hnl : '\n' ∉ msg) (hlen : MAX_MESSAGE_LENGTH < msg.length) :
    splitMessage msg = hardSplit msg ∧
      (splitMessage msg).length =
        (msg.length + (MAX_MESSAGE_LENGTH - 100) - 1) /
          (MAX_MESSAGE_LENGTH - 100) ∧
      (∀ c ∈ splitMessage msg, c.length ≤ MAX_MESSAGE_LENGTH - 100) ∧
      (splitMessage msg).flatten = msg := by
  have hne : msg ≠ [] := by
    intro he
    rw [he] at hlen
    simp at hlen
  have heq : splitMessage msg = hardSplit msg :=
    splitMessage_eq_hardSplit msg hnl hlen
  refine ⟨heq, ?_, ?_, ?_⟩
  · rw [heq]
    exact hardSplit_count msg.length msg le_rfl hne
  · rw [heq]
    exact fun c hc => hardSplit_piece_le msg.length msg le_rfl c hc
  · rw [heq]
    exact hardSplit_join msg.length msg le_rfl

/-- Witness for C5 at a single line of 4097 copies of `a`. -/
theorem splitMessage_single_long_line_witness :
    ('\n' ∉ List.replicate 4097 'a') ∧
      MAX_MESSAGE_LENGTH < (List.replicate 4097 'a').length ∧
      (splitMessage (List.replicate 4097 'a') =
          hardSplit (List.replicate 4097 'a') ∧
        (splitMessage (List.replicate 4097 'a')).length =
          ((List.replicate 4097 'a').length + (MAX_MESSAGE_LENGTH - 100) - 1) /
            (MAX_MESSAGE_LENGTH - 100) ∧
        (∀ c ∈ splitMessage (List.replicate 4097 'a'),
            c.length ≤ MAX_MESSAGE_LENGTH - 100) ∧
        (splitMessage (List.replicate 4097 'a')).flatten =
          List.replicate 4097 'a') := by
  have h1 : '\n' ∉ List.replicate 4097 'a' := by
    rw [List.mem_replicate]
    rintro ⟨-, h⟩
    exact absurd h (by decide)
  have h2 : MAX_MESSAGE_LENGTH < (List.replicate 4097 'a').length := by
    rw [List.length_replicate]
    unfold MAX_MESSAGE_LENGTH
    omega
  exact ⟨h1, h2, splitMessage_single_long_line (List.replicate 4097 'a') h1 h2⟩

/-- A line without a newline prepended to the rest via one newline splits
into the line followed by the split of the rest. -/
theorem splitLines_append_newline (xs ys : List Char) (h : '\n' ∉ xs) :
    splitLines (xs ++ '\n' :: ys) = xs :: splitLines ys := by
  induction xs with
  | nil =>
    simp [splitLines]
  | cons c xs ih =>
    have hc : ¬c = '\n' := fun he => h (by simp [he])
    have hx : '\n' ∉ xs := fun hm => h (List.mem_cons_of_mem _ hm)
    simp only [List.cons_append]
    conv_lhs => rw [splitLines]
    rw [if_neg hc, ih hx]

/-- Counterexample to C3: `_split_message` does return an empty chunk, both
for the empty message and for a message whose first line has length exactly
`MAX_MESSAGE_LENGTH` (the `elif` flushes the still-empty `current_chunk`). -/
theorem splitMessage_empty_chunk_cex :
    ([] : List Char) ∈ splitMessage [] ∧
      ([] : List Char) ∈
        splitMessage (List.replicate 4096 'a' ++ '\n' :: ['b']) := by
  constructor
  · unfold splitMessage
    rw [if_pos (by simp [MAX_MESSAGE_LENGTH])]
    simp
  · have hA : '\n' ∉ List.replicate 4096 'a' := by
      rw [List.mem_replicate]
      rintro ⟨-, h⟩
      exact absurd h (by decide)
    have hlen :
        ¬(List.replicate 4096 'a' ++ '\n' :: ['b']).length ≤
          MAX_MESSAGE_LENGTH := by
      simp only [List.length_append, List.length_replicate, List.length_cons,
        List.length_nil, MAX_MESSAGE_LENGTH]
      omega
    have s1 : splitStep ([], []) (List.replicate 4096 'a') =
        ([[]], List.replicate 4096 'a') := by
      unfold splitStep
      rw [if_neg (by norm_num [MAX_MESSAGE_LENGTH]),
        if_pos (by norm_num [MAX_MESSAGE_LENGTH])]
      rfl
    have s2 : splitStep ([[]], List.replicate 4096 'a') ['b'] =
        ([[], List.replicate 4096 'a'], ['b']) := by
      unfold splitStep
      rw [if_neg (by norm_num [MAX_MESSAGE_LENGTH]),
        if_pos (by norm_num [MAX_MESSAGE_LENGTH])]
      rfl
    unfold splitMessage
    rw [if_neg hlen, splitLines_append_newline _ _ hA,
      splitLines_no_newline ['b'] (by decide)]
    simp only [List.foldl_cons, List.foldl_nil]
    rw [s1, s2]
    unfold finalizeChunks
    rw [if_neg (by simp)]
    exact List.mem_append_left _ (List.mem_cons_self _ _)

/-- No hard-split piece is empty. -/
theorem hardSplit_piece_ne_nil :
    ∀ n (l : List Char), l.length ≤ n → ∀ c ∈ hardSplit l, c ≠ [] := by
  intro n
  induction n with
  | zero =>
    intro l hl c hc
    have : l = [] := List.eq_nil_of_length_eq_zero (Nat.le_zero.mp hl)
    subst this
    rw [hardSplit_nil] at hc
    simp at hc
  | succ n ih =>
    intro l hl c hc
    rw [hardSplit] at hc
    by_cases h : l = []
    · simp [h] at hc
    · simp only [h, dif_neg, not_false_iff] at hc
      rcases List.mem_cons.mp hc with h1 | h1
      · subst h1
        simp only [ne_eq, List.take_eq_nil_iff, MAX_MESSAGE_LENGTH]
        push_neg
        exact ⟨by omega, h⟩
      · have hp : 0 < l.length := List.length_pos.mpr h
        exact ih (l.drop (MAX_MESSAGE_LENGTH - 100))
          (by simp only [List.length_drop, MAX_MESSAGE_LENGTH] at *; omega) c h1

/-- One chunking step keeps all flushed chunks non-empty, provided the
incoming line does not have length exactly `MAX_MESSAGE_LENGTH`. -/
theorem splitStep_ne_nil (acc : List (List Char) × List Char)
    (line : List Char) (hline : line.length ≠ MAX_MESSAGE_LENGTH)
    (h1 : ∀ ch ∈ acc.1, ch ≠ []) :
    ∀ ch ∈ (splitStep acc line).1, ch ≠ [] := by
  unfold splitStep
  split
  · intro ch hc
    rcases List.mem_append.mp hc with hc | hc
    · split at hc
      · exact h1 ch hc
      · rename_i hcur
        rcases List.mem_append.mp hc with hc | hc
        · exact h1 ch hc
        · simp at hc
          subst hc
          exact hcur
    · exact hardSplit_piece_ne_nil line.length line le_rfl ch hc
  · split
    · rename_i hshort hover
      intro ch hc
      rcases List.mem_append.mp hc with hc | hc
      · exact h1 ch hc
      · simp at hc
        subst hc
        intro he
        rw [he] at hover
        simp only [List.length_nil, MAX_MESSAGE_LENGTH] at hover hshort hline
        omega
    · intro ch hc
      exact h1 ch hc

/-- The chunking loop keeps all flushed chunks non-empty when no line has
length exactly `MAX_MESSAGE_LENGTH`. -/
theorem splitStep_fold_ne_nil (lines : List (List Char)) :
    ∀ acc : List (List Char) × List Char,
      (∀ l ∈ lines, l.length ≠ MAX_MESSAGE_LENGTH) →
      (∀ ch ∈ acc.1, ch ≠ []) →
      ∀ ch ∈ (lines.foldl splitStep acc).1, ch ≠ [] := by
  induction lines with
  | nil => intro acc _ h1; exact h1
  | cons l ls ih =>
    intro acc hl h1
    exact ih (splitStep acc l) (fun x hx => hl x (List.mem_cons_of_mem _ hx))
      (splitStep_ne_nil acc l (hl l (List.mem_cons_self _ _)) h1)

/-- C3 as amended: no chunk returned by `_split_message` is empty, provided
the message itself is non-empty and no line of the message has length
exactly `MAX_MESSAGE_LENGTH`. -/
theorem splitMessage_chunk_ne_nil (message c : List Char)
    (hm : message ≠ [])
    (hline : ∀ l ∈ splitLines message, l.length ≠ MAX_MESSAGE_LENGTH)
    (hc : c ∈ splitMessage message) : c ≠ [] := by
  unfold splitMessage at hc
  split at hc
  · simp at hc
    subst hc
    exact hm
  · have hinv := splitStep_fold_ne_nil (splitLines message) ([], []) hline
      (by simp)
    unfold finalizeChunks at hc
    split at hc
    · exact hinv c hc
    · rename_i hcur
      rcases List.mem_append.mp hc with hc | hc
      · exact hinv c hc
      · simp at hc
        subst hc
        exact hcur

/-- Witness for the amended C3 at the message `"ab"`. -/
theorem splitMessage_chunk_ne_nil_witness :
    (['a', 'b'] : List Char) ≠ [] ∧
      (∀ l ∈ splitLines ['a', 'b'], l.length ≠ MAX_MESSAGE_LENGTH) ∧
      (['a', 'b'] : List Char) ≠ [] :=
  ⟨by decide, by decide,
    splitMessage_chunk_ne_nil ['a', 'b'] ['a', 'b'] (by decide) (by decide)
      (by decide)⟩


/-- A reconstruction involves at least one chunk. -/
theorem Reconstructs.ne_nil {cs : List (List Char)} {m : List Char}
    (h : Reconstructs cs m) : cs ≠ [] := by
  cases h <;> simp

/-- A single chunk reconstructs only itself. -/
theorem Reconstructs.single_inv {c m : List Char}
    (h : Reconstructs [c] m) : m = c := by
  cases h with
  | single => rfl
  | cons_nl _ h' => exact absurd rfl h'.ne_nil
  | cons_cat _ h' => exact absurd rfl h'.ne_nil

/-- Two reconstructions concatenate, joining the seam with a newline. -/
theorem Reconstructs.concat_nl {cs ds : List (List Char)} {m n : List Char}
    (h1 : Reconstructs cs m) (h2 : Reconstructs ds n) :
    Reconstructs (cs ++ ds) (m ++ '\n' :: n) := by
  induction h1 with
  | single c => exact Reconstructs.cons_nl c h2
  | cons_nl c h' ih =>
    have := Reconstructs.cons_nl c ih
    simpa [List.append_assoc] using this
  | cons_cat c h' ih =>
    have := Reconstructs.cons_cat c ih
    simpa [List.append_assoc] using this

/-- Two reconstructions concatenate, joining the seam directly. -/
theorem Reconstructs.concat_cat {cs ds : List (List Char)} {m n : List Char}
    (h1 : Reconstructs cs m) (h2 : Reconstructs ds n) :
    Reconstructs (cs ++ ds) (m ++ n) := by
  induction h1 with
  | single c => exact Reconstructs.cons_cat c h2
  | cons_nl c h' ih =>
    have := Reconstructs.cons_nl c ih
    simpa [List.append_assoc] using this
  | cons_cat c h' ih =>
    have := Reconstructs.cons_cat c ih
    simpa [List.append_assoc] using this

/-- Extending the last chunk with a suffix extends the reconstructed text
with the same suffix. -/
theorem Reconstructs.append_last :
    ∀ (cs : List (List Char)) (c s m : List Char),
      Reconstructs (cs ++ [c]) m → Reconstructs (cs ++ [c ++ s]) (m ++ s) := by
  intro cs
  induction cs with
  | nil =>
    intro c s m h
    rw [List.nil_append] at h
    rw [h.single_inv, List.nil_append]
    exact Reconstructs.single (c ++ s)
  | cons x xs ih =>
    intro c s m h
    rw [List.cons_append] at h
    generalize hds : xs ++ [c] = ds at h
    cases h with
    | single => simp at hds
    | cons_nl _ h' =>
      subst hds
      have := Reconstructs.cons_nl x (ih c s _ h')
      simpa [List.append_assoc] using this
    | cons_cat _ h' =>
      subst hds
      have := Reconstructs.cons_cat x (ih c s _ h')
      simpa [List.append_assoc] using this

/-- The hard-split of a non-empty line yields at least one piece. -/
theorem hardSplit_ne_nil (l : List Char) (h : l ≠ []) : hardSplit l ≠ [] := by
  rw [hardSplit]
  simp [h]

/-- The hard-split pieces reconstruct the line (all seams joined directly). -/
theorem hardSplit_reconstructs :
    ∀ n (l : List Char), l.length ≤ n → l ≠ [] →
      Reconstructs (hardSplit l) l := by
  intro n
  induction n with
  | zero =>
    intro l hl h
    exact absurd (List.eq_nil_of_length_eq_zero (Nat.le_zero.mp hl)) h
  | succ n ih =>
    intro l hl h
    have hp : 0 < l.length := List.length_pos.mpr h
    rw [hardSplit]
    simp only [h, dif_neg, not_false_iff]
    by_cases hd : l.drop (MAX_MESSAGE_LENGTH - 100) = []
    · have hle : l.length ≤ MAX_MESSAGE_LENGTH - 100 := by
        have := congrArg List.length hd
        simp only [List.length_drop, List.length_nil] at this
        omega
      rw [hd, hardSplit_nil, List.take_of_length_le hle]
      exact Reconstructs.single l
    · have hrec := ih (l.drop (MAX_MESSAGE_LENGTH - 100))
        (by simp only [List.length_drop, MAX_MESSAGE_LENGTH] at *; omega) hd
      have := Reconstructs.concat_cat
        (Reconstructs.single (l.take (MAX_MESSAGE_LENGTH - 100))) hrec
      simpa [List.take_append_drop] using this


/-- `splitLines` loses nothing: re-joining the lines gives the message. -/
theorem unsplitLines_splitLines (s : List Char) :
    unsplitLines (splitLines s) = s := by
  induction s with
  | nil => rfl
  | cons c rest ih =>
    obtain ⟨r0, rs, hr⟩ := List.exists_cons_of_ne_nil (splitLines_ne_nil rest)
    by_cases hc : c = '\n'
    · subst hc
      conv_lhs => rw [splitLines, if_pos rfl]
      rw [hr]
      show '\n' :: unsplitLines (r0 :: rs) = '\n' :: rest
      rw [← hr, ih]
    · conv_lhs => rw [splitLines, if_neg hc]
      rw [hr]
      show unsplitLines ((c :: r0) :: rs) = c :: rest
      cases rs with
      | nil =>
        show c :: r0 = c :: rest
        rw [hr] at ih
        simpa [unsplitLines] using congrArg (c :: ·) ih
      | cons r1 rs1 =>
        show (c :: r0) ++ '\n' :: unsplitLines (r1 :: rs1) = c :: rest
        rw [hr] at ih
        rw [List.cons_append]
        exact congrArg (c :: ·) ih

/-- Appending one more line to a non-empty batch adds a newline seam. -/
theorem unsplitLines_append_single (done : List (List Char)) (l : List Char)
    (h : done ≠ []) :
    unsplitLines (done ++ [l]) = unsplitLines done ++ '\n' :: l := by
  induction done with
  | nil => exact absurd rfl h
  | cons d ds ih =>
    cases ds with
    | nil => rfl
    | cons d2 ds2 =>
      have h1 : unsplitLines (d :: d2 :: (ds2 ++ [l])) =
          d ++ '\n' :: unsplitLines (d2 :: (ds2 ++ [l])) := rfl
      have h2 : unsplitLines (d :: d2 :: ds2) =
          d ++ '\n' :: unsplitLines (d2 :: ds2) := rfl
      simp only [List.cons_append] at h1 ⊢
      rw [h1, h2, show d2 :: (ds2 ++ [l]) = (d2 :: ds2) ++ [l] from rfl,
        ih (by simp)]
      simp [List.append_assoc]


/-- One chunking step preserves the reconstruction invariant, for a
non-empty incoming line. -/
theorem splitStep_recon (chunks : List (List Char)) (current l : List Char)
    (done : List (List Char)) (hl : l ≠ [])
    (hinv : ReconInv (chunks, current) done) :
    ReconInv (splitStep (chunks, current) l) (done ++ [l]) := by
  unfold ReconInv at hinv ⊢
  unfold splitStep
  dsimp only
  split
  · rename_i hlong
    right; right
    refine ⟨by simp, rfl, ?_, ?_⟩
    · rcases hinv with ⟨h1, h2, h3⟩ | ⟨h1, h2, h3⟩ | ⟨h1, h2, h3, h4⟩
      · subst h1; subst h2
        simpa using hardSplit_ne_nil l hl
      · rw [if_neg h2]
        simp
      · rw [if_pos h2]
        simp [hardSplit_ne_nil l hl]
    · rcases hinv with ⟨h1, h2, h3⟩ | ⟨h1, h2, h3⟩ | ⟨h1, h2, h3, h4⟩
      · subst h1; subst h2; subst h3
        rw [if_pos rfl, List.nil_append, List.nil_append]
        exact hardSplit_reconstructs l.length l le_rfl hl
      · rw [if_neg h2, unsplitLines_append_single done l h1]
        exact Reconstructs.concat_nl h3 (hardSplit_reconstructs l.length l le_rfl hl)
      · rw [if_pos h2, unsplitLines_append_single done l h1]
        exact Reconstructs.concat_nl h4 (hardSplit_reconstructs l.length l le_rfl hl)
  · split
    · rename_i hshort hover
      right; left
      refine ⟨by simp, hl, ?_⟩
      rcases hinv with ⟨h1, h2, h3⟩ | ⟨h1, h2, h3⟩ | ⟨h1, h2, h3, h4⟩
      · subst h1; subst h2; subst h3
        have : Reconstructs ([] :: [l]) ([] ++ l) :=
          Reconstructs.cons_cat [] (Reconstructs.single l)
        simpa using this
      · rw [unsplitLines_append_single done l h1]
        exact Reconstructs.concat_nl h3 (Reconstructs.single l)
      · subst h2
        rw [unsplitLines_append_single done l h1]
        have hb : Reconstructs ([[], l] : List (List Char)) l := by
          have : Reconstructs ([] :: [l]) ([] ++ l) :=
            Reconstructs.cons_cat [] (Reconstructs.single l)
          simpa using this
        have := Reconstructs.concat_nl h4 hb
        simpa [List.append_assoc] using this
    · rename_i hshort hfits
      right; left
      refine ⟨by simp, by simp [hl], ?_⟩
      rcases hinv with ⟨h1, h2, h3⟩ | ⟨h1, h2, h3⟩ | ⟨h1, h2, h3, h4⟩
      · subst h1; subst h2; subst h3
        rw [if_pos rfl]
        simpa using Reconstructs.single l
      · rw [if_neg h2, unsplitLines_append_single done l h1]
        have := Reconstructs.append_last chunks current ('\n' :: l)
          (unsplitLines done) h3
        simpa using this
      · subst h2
        rw [if_pos rfl, unsplitLines_append_single done l h1]
        simpa using Reconstructs.concat_nl h4 (Reconstructs.single l)

/-- The chunking loop preserves the reconstruction invariant over any run
of non-empty lines. -/
theorem splitStep_fold_recon :
    ∀ (rest done : List (List Char)) (st : List (List Char) × List Char),
      (∀ l ∈ rest, l ≠ []) → ReconInv st done →
      ReconInv (rest.foldl splitStep st) (done ++ rest) := by
  intro rest
  induction rest with
  | nil =>
    intro done st _ h
    simpa using h
  | cons l ls ih =>
    intro done st hne hinv
    rw [List.foldl_cons]
    have hstep : ReconInv (splitStep st l) (done ++ [l]) := by
      obtain ⟨chunks, current⟩ := st
      exact splitStep_recon chunks current l done (hne l (by simp)) hinv
    have := ih (done ++ [l]) (splitStep st l)
      (fun x hx => hne x (List.mem_cons_of_mem _ hx)) hstep
    simpa [List.append_assoc] using this

/-- C1 as amended: for a message in which no line is empty, the chunks of
`_split_message`, re-joined with a newline where the split happened at a
line boundary and directly where a long line was hard-split, rebuild the
original message exactly. -/
theorem splitMessage_reconstructs (message : List Char)
    (h : ∀ l ∈ splitLines message, l ≠ []) :
    Reconstructs (splitMessage message) message := by
  unfold splitMessage
  split
  · exact Reconstructs.single message
  · have hfold := splitStep_fold_recon (splitLines message) [] ([], [])
      h (Or.inl ⟨rfl, rfl, rfl⟩)
    rw [List.nil_append] at hfold
    unfold ReconInv at hfold
    rcases hfold with ⟨-, -, hnil⟩ | ⟨-, h2, h3⟩ | ⟨-, h2, h3, h4⟩
    · exact absurd hnil (splitLines_ne_nil message)
    · unfold finalizeChunks
      rw [unsplitLines_splitLines] at h3
      rw [if_neg h2]
      exact h3
    · unfold finalizeChunks
      rw [unsplitLines_splitLines] at h4
      rw [if_pos h2]
      exact h4

/-- Witness for the amended C1 at the message `"a"`. -/
theorem splitMessage_reconstructs_witness :
    (∀ l ∈ splitLines ['a'], l ≠ []) ∧
      Reconstructs (splitMessage ['a']) ['a'] :=
  ⟨by decide, splitMessage_reconstructs ['a'] (by decide)⟩

/-- Counterexample to C1 as stated: for the message
`"\n" ++ "a" * 4095 ++ "\n" ++ "b"` (length 4098 > 4096) the returned
chunks are `["a" * 4095, "b"]`; no choice of seams (newline or direct)
rebuilds the message — the two newlines around the empty first line are
silently dropped. -/
theorem splitMessage_reconstruct_cex :
    ¬ Reconstructs
        (splitMessage ('\n' :: (List.replicate 4095 'a' ++ '\n' :: ['b'])))
        ('\n' :: (List.replicate 4095 'a' ++ '\n' :: ['b'])) := by
  have hA : '\n' ∉ List.replicate 4095 'a' := by
    rw [List.mem_replicate]
    rintro ⟨-, h⟩
    exact absurd h (by decide)
  have hlen :
      ¬('\n' :: (List.replicate 4095 'a' ++ '\n' :: ['b'])).length ≤
        MAX_MESSAGE_LENGTH := by
    simp only [List.length_cons, List.length_append, List.length_replicate,
      List.length_nil, MAX_MESSAGE_LENGTH]
    omega
  have hlines :
      splitLines ('\n' :: (List.replicate 4095 'a' ++ '\n' :: ['b'])) =
        [[], List.replicate 4095 'a', ['b']] := by
    conv_lhs => rw [splitLines]
    rw [if_pos rfl, splitLines_append_newline _ _ hA,
      splitLines_no_newline ['b'] (by decide)]
  have s0 : splitStep ([], []) [] = ([], []) := by
    unfold splitStep
    rw [if_neg (by norm_num [MAX_MESSAGE_LENGTH]),
      if_neg (by norm_num [MAX_MESSAGE_LENGTH])]
    rfl
  have s1 : splitStep ([], []) (List.replicate 4095 'a') =
      ([], List.replicate 4095 'a') := by
    unfold splitStep
    rw [if_neg (by norm_num [MAX_MESSAGE_LENGTH]),
      if_neg (by norm_num [MAX_MESSAGE_LENGTH])]
    rfl
  have s2 : splitStep ([], List.replicate 4095 'a') ['b'] =
      ([List.replicate 4095 'a'], ['b']) := by
    unfold splitStep
    rw [if_neg (by norm_num [MAX_MESSAGE_LENGTH]),
      if_pos (by norm_num [MAX_MESSAGE_LENGTH])]
    rfl
  have hsplit :
      splitMessage ('\n' :: (List.replicate 4095 'a' ++ '\n' :: ['b'])) =
        [List.replicate 4095 'a', ['b']] := by
    unfold splitMessage
    rw [if_neg hlen, hlines]
    simp only [List.foldl_cons, List.foldl_nil]
    rw [s0, s1, s2]
    unfold finalizeChunks
    rw [if_neg (by simp)]
    rfl
  rw [hsplit]
  intro h
  generalize hmsg :
    ('\n' :: (List.replicate 4095 'a' ++ '\n' :: ['b'])) = msg0 at h
  cases h with
  | cons_nl _ h' =>
    have hm := h'.single_inv
    subst hm
    have hlencon := congrArg List.length hmsg
    simp only [List.length_cons, List.length_append,
      List.length_replicate, List.length_nil] at hlencon
    omega
  | cons_cat _ h' =>
    have hm := h'.single_inv
    subst hm
    have hlencon := congrArg List.length hmsg
    simp only [List.length_cons, List.length_append,
      List.length_replicate, List.length_nil] at hlencon
    omega

/-- C4: a message no longer than the limit is returned unchanged as the
single chunk. -/
theorem splitMessage_short (message : List Char)
    (h : message.length ≤ MAX_MESSAGE_LENGTH) :
    splitMessage message = [message] := by
  simp [splitMessage, h]

/-- Witness for C4 at the one-character message `['a']`. -/
theorem splitMessage_short_witness :
    (['a'] : List Char).length ≤ MAX_MESSAGE_LENGTH ∧
      splitMessage ['a'] = [['a']] :=
  ⟨by decide, splitMessage_short ['a'] (by decide)⟩

/-- The Boolean returned by the delivery loop is `true` exactly when every
chunk, from the starting index on, is accepted. -/
theorem sendChunks_true_iff (beh : Nat → Bool → SendOutcome)
    (pm : Option String) (total : Nat) :
    ∀ (cs : List (List Char)) (s : Nat),
      (sendChunks beh pm total s cs).2 = true ↔
        ∀ j < cs.length, accepted beh (s + j) := by
  intro cs
  induction cs with
  | nil =>
    intro s
    simp [sendChunks]
  | cons c rest ih =>
    intro s
    rw [sendChunks]
    cases hbf : beh s false with
    | ok =>
      dsimp only
      rw [ih (s + 1)]
      constructor
      · intro hall j hj
        cases j with
        | zero => exact Or.inl hbf
        | succ j =>
          have hlt : j < rest.length := by
            simp only [List.length_cons] at hj
            omega
          have := hall j hlt
          have harith : s + 1 + j = s + (j + 1) := by omega
          rwa [harith] at this
      · intro hall j hj
        have := hall (j + 1) (by simp only [List.length_cons]; omega)
        have harith : s + (j + 1) = s + 1 + j := by omega
        rwa [harith] at this
    | err e =>
      dsimp only
      by_cases hcp : containsCantParse e = true
      · rw [if_pos hcp]
        cases hbr : beh s true with
        | ok =>
          dsimp only
          rw [ih (s + 1)]
          constructor
          · intro hall j hj
            cases j with
            | zero => exact Or.inr ⟨e, hbf, hcp, hbr⟩
            | succ j =>
              have hlt : j < rest.length := by
                simp only [List.length_cons] at hj
                omega
              have := hall j hlt
              have harith : s + 1 + j = s + (j + 1) := by omega
              rwa [harith] at this
          · intro hall j hj
            have := hall (j + 1) (by simp only [List.length_cons]; omega)
            have harith : s + (j + 1) = s + 1 + j := by omega
            rwa [harith] at this
        | err e2 =>
          dsimp only
          constructor
          · intro hfalse
            simp at hfalse
          · intro hall
            exfalso
            have h0 := hall 0 (by simp)
            rw [Nat.add_zero] at h0
            rcases h0 with h0 | ⟨e', he', -, hret'⟩
            · rw [hbf] at h0
              exact SendOutcome.noConfusion h0
            · rw [hbr] at hret'
              exact SendOutcome.noConfusion hret'
      · rw [if_neg hcp]
        dsimp only
        constructor
        · intro hfalse
          simp at hfalse
        · intro hall
          exfalso
          have h0 := hall 0 (by simp)
          rw [Nat.add_zero] at h0
          rcases h0 with h0 | ⟨e', he', hcp', -⟩
          · rw [hbf] at h0
            exact SendOutcome.noConfusion h0
          · rw [hbf] at he'
            injection he' with hee
            subst hee
            exact hcp hcp'

/-- If the first non-accepted chunk is at offset `k`, the delivery loop
returns `false` and performs no transport call for any chunk beyond it. -/
theorem sendChunks_abort (beh : Nat → Bool → SendOutcome)
    (pm : Option String) (total : Nat) :
    ∀ (cs : List (List Char)) (s k : Nat), k < cs.length →
      (∀ j < k, accepted beh (s + j)) → ¬ accepted beh (s + k) →
      (sendChunks beh pm total s cs).2 = false ∧
        ∀ i c p r, Event.sendEv i c p r ∈ (sendChunks beh pm total s cs).1 →
          i ≤ s + k := by
  intro cs
  induction cs with
  | nil =>
    intro s k hk
    simp at hk
  | cons c rest ih =>
    intro s k hk hacc hnacc
    rw [sendChunks]
    cases k with
    | zero =>
      rw [Nat.add_zero] at hnacc
      cases hbf : beh s false with
      | ok => exact absurd (Or.inl hbf) hnacc
      | err e =>
        dsimp only
        by_cases hcp : containsCantParse e = true
        · rw [if_pos hcp]
          cases hbr : beh s true with
          | ok => exact absurd (Or.inr ⟨e, hbf, hcp, hbr⟩) hnacc
          | err e2 =>
            dsimp only
            refine ⟨rfl, ?_⟩
            intro i c' p r hm
            rcases List.mem_cons.mp hm with h1 | h1
            · injection h1 with hi
              omega
            · rcases List.mem_cons.mp h1 with h2 | h2
              · injection h2 with hi
                omega
              · simp at h2
        · rw [if_neg hcp]
          dsimp only
          refine ⟨rfl, ?_⟩
          intro i c' p r hm
          rcases List.mem_cons.mp hm with h1 | h1
          · injection h1 with hi
            omega
          · simp at h1
    | succ k' =>
      have h0 : accepted beh s := by
        have := hacc 0 (by omega)
        rwa [Nat.add_zero] at this
      have hrec := ih (s + 1) k'
        (by simp only [List.length_cons] at hk; omega)
        (fun j hj => by
          have := hacc (j + 1) (by omega)
          have harith : s + (j + 1) = s + 1 + j := by omega
          rwa [harith] at this)
        (by
          have harith : s + 1 + k' = s + (k' + 1) := by omega
          rwa [harith])
      cases hbf : beh s false with
      | ok =>
        dsimp only
        refine ⟨hrec.1, ?_⟩
        intro i c' p r hm
        rcases List.mem_cons.mp hm with h1 | h1
        · injection h1 with hi
          omega
        · rcases List.mem_append.mp h1 with h2 | h2
          · exfalso
            revert h2
            split <;> simp
          · have := hrec.2 i c' p r h2
            omega
      | err e =>
        rcases h0 with h0 | ⟨e', he', hcp', hret'⟩
        · rw [hbf] at h0
          exact SendOutcome.noConfusion h0
        · rw [hbf] at he'
          injection he' with hee
          subst hee
          dsimp only
          rw [if_pos hcp', hret']
          dsimp only
          refine ⟨hrec.1, ?_⟩
          intro i c' p r hm
          rcases List.mem_cons.mp hm with h1 | h1
          · injection h1 with hi
            omega
          · rcases List.mem_cons.mp h1 with h2 | h2
            · injection h2 with hi
              omega
            · have := hrec.2 i c' p r h2
              omega

/-- C7: `send_message` returns `True` exactly when every chunk is accepted
by the transport (possibly via the single plain-text formatting fallback);
when the first non-accepted chunk is chunk `k` — a non-parse failure, or a
parse failure whose fallback also fails — the result is `False` and no
chunk after `k` is ever sent.  The model being a total function returning
a Boolean, no exception reaches the caller. -/
theorem send_message_success_iff (beh : Nat → Bool → SendOutcome)
    (pm : Option String) (message : List Char) :
    ((send_message beh pm message).2 = true ↔
      ∀ j < (splitMessage message).length, accepted beh j) ∧
      ∀ k, k < (splitMessage message).length →
        (∀ j < k, accepted beh j) → ¬ accepted beh k →
        (send_message beh pm message).2 = false ∧
          ∀ i c p r,
            Event.sendEv i c p r ∈ (send_message beh pm message).1 →
              i ≤ k := by
  constructor
  · have := sendChunks_true_iff beh pm (splitMessage message).length
      (splitMessage message) 0
    simpa using this
  · intro k hk hall hnot
    have := sendChunks_abort beh pm (splitMessage message).length
      (splitMessage message) 0 k hk (by simpa using hall)
      (by simpa using hnot)
    simpa using this

/-- Witness for C7 at the one-chunk message `"a"` and the all-accepting
transport. -/
theorem send_message_success_iff_witness :
    (send_message behAllOk none ['a']).2 = true :=
  ((send_message_success_iff behAllOk none ['a']).1.mpr
    (fun _ _ => Or.inl rfl))

/-- A run of chunks whose primary sends all succeed contributes its
`okTrace` to the events and continues with the remaining chunks. -/
theorem sendChunks_ok_append (beh : Nat → Bool → SendOutcome)
    (pm : Option String) (total : Nat) :
    ∀ (cs ds : List (List Char)) (s : Nat),
      (∀ j < cs.length, beh (s + j) false = SendOutcome.ok) →
      sendChunks beh pm total s (cs ++ ds) =
        (okTrace pm total s cs ++
            (sendChunks beh pm total (s + cs.length) ds).1,
          (sendChunks beh pm total (s + cs.length) ds).2) := by
  intro cs
  induction cs with
  | nil =>
    intro ds s _
    simp [okTrace]
  | cons c rest ih =>
    intro ds s h
    have hb : beh s false = SendOutcome.ok := by
      have := h 0 (by simp)
      simpa using this
    rw [List.cons_append, sendChunks, hb]
    dsimp only
    rw [ih ds (s + 1) (fun j hj => by
      have := h (j + 1) (by simp only [List.length_cons]; omega)
      have harith : s + (j + 1) = s + 1 + j := by omega
      rwa [harith] at this)]
    rw [okTrace]
    have harith : s + 1 + rest.length = s + (rest.length + 1) := by omega
    simp [harith, List.append_assoc]

/-- `okTrace` contains no retry event. -/
theorem okTrace_filter_retry (pm : Option String) (total : Nat) :
    ∀ (cs : List (List Char)) (s : Nat),
      (okTrace pm total s cs).filter isRetryEv = [] := by
  intro cs
  induction cs with
  | nil => intro s; simp [okTrace]
  | cons c rest ih =>
    intro s
    rw [okTrace]
    simp only [List.filter_cons, List.filter_append, isRetryEv, ih (s + 1)]
    split <;> simp_all [isRetryEv]

/-- `okTrace` contains a primary send for every chunk of its run. -/
theorem okTrace_mem (pm : Option String) (total : Nat) :
    ∀ (cs : List (List Char)) (s j : Nat), j < cs.length →
      ∃ c, Event.sendEv (s + j) c pm false ∈ okTrace pm total s cs := by
  intro cs
  induction cs with
  | nil =>
    intro s j hj
    simp at hj
  | cons c rest ih =>
    intro s j hj
    rw [okTrace]
    cases j with
    | zero => exact ⟨c, by simp⟩
    | succ j =>
      obtain ⟨c', hc'⟩ := ih (s + 1) j
        (by simp only [List.length_cons] at hj; omega)
      refine ⟨c', ?_⟩
      have harith : s + (j + 1) = s + 1 + j := by omega
      rw [harith]
      exact List.mem_cons_of_mem _ (List.mem_append_right _ hc')

/-- C6: when delivery reaches chunk `i` (here the chunk `ci` after the
prefix `A`), its primary send fails with a markup-parse error and its
plain-text retry succeeds while every other primary send succeeds, then:
the only retry event of the whole run is the one resend of chunk `i` with
formatting disabled, that resend immediately follows the failed primary
send of chunk `i`, every chunk of the message still gets its primary send
(delivery continues with chunk `i+1`), and the run succeeds. -/
theorem send_message_markup_retry (beh : Nat → Bool → SendOutcome)
    (pm : Option String) (message : List Char)
    (A B : List (List Char)) (ci e : List Char)
    (hsplit : splitMessage message = A ++ ci :: B)
    (hfail : beh A.length false = SendOutcome.err e)
    (hparse : containsCantParse e = true)
    (hretry : beh A.length true = SendOutcome.ok)
    (hok : ∀ j, j ≠ A.length → beh j false = SendOutcome.ok) :
    (send_message beh pm message).1.filter isRetryEv =
        [Event.sendEv A.length ci none true] ∧
      [Event.sendEv A.length ci pm false,
        Event.sendEv A.length ci none true] <:+:
        (send_message beh pm message).1 ∧
      (∀ j, j < (splitMessage message).length →
        ∃ cj, Event.sendEv j cj pm false ∈ (send_message beh pm message).1) ∧
      (send_message beh pm message).2 = true := by
  have hT : (splitMessage message).length = A.length + (B.length + 1) := by
    rw [hsplit]
    simp only [List.length_append, List.length_cons]
  have hmid : ∀ T, sendChunks beh pm T A.length (ci :: B) =
      (Event.sendEv A.length ci pm false ::
          Event.sendEv A.length ci none true ::
          okTrace pm T (A.length + 1) B,
        true) := by
    intro T
    rw [sendChunks, hfail]
    dsimp only
    rw [if_pos hparse, hretry]
    dsimp only
    have hlast := sendChunks_ok_append beh pm T
      B [] (A.length + 1) (fun j hj => by
        have : A.length + 1 + j ≠ A.length := by omega
        exact hok _ this)
    rw [List.append_nil] at hlast
    rw [hlast]
    simp [sendChunks]
  have htrace :
      send_message beh pm message =
        (okTrace pm (splitMessage message).length 0 A ++
            Event.sendEv A.length ci pm false ::
            Event.sendEv A.length ci none true ::
            okTrace pm (splitMessage message).length (A.length + 1) B,
          true) := by
    unfold send_message
    rw [hsplit]
    rw [sendChunks_ok_append beh pm (A ++ ci :: B).length A (ci :: B) 0
      (fun j hj => by
        have : j ≠ A.length := by omega
        simpa using hok j this)]
    simp only [Nat.zero_add]
    rw [hmid (A ++ ci :: B).length]
  rw [htrace]
  refine ⟨?_, ?_, ?_, rfl⟩
  · simp [List.filter_append, List.filter_cons, isRetryEv,
      okTrace_filter_retry]
  · exact ⟨okTrace pm (splitMessage message).length 0 A,
      okTrace pm (splitMessage message).length (A.length + 1) B,
      by simp⟩
  · intro j hj
    rw [hT] at hj
    rcases Nat.lt_trichotomy j A.length with hlt | heq | hgt
    · obtain ⟨c', hc'⟩ := okTrace_mem pm (splitMessage message).length
        A 0 j (by omega)
      rw [Nat.zero_add] at hc'
      exact ⟨c', List.mem_append_left _ hc'⟩
    · subst heq
      exact ⟨ci, List.mem_append_right _ (by simp)⟩
    · obtain ⟨c', hc'⟩ := okTrace_mem pm (splitMessage message).length
        B (A.length + 1) (j - A.length - 1) (by omega)
      have harith : A.length + 1 + (j - A.length - 1) = j := by omega
      rw [harith] at hc'
      refine ⟨c', List.mem_append_right _ ?_⟩
      exact List.mem_cons_of_mem _ (List.mem_cons_of_mem _ hc')

/-- Witness for C6 at the one-chunk message `"a"` and the transport whose
primary send of chunk 0 fails with a parse error. -/
theorem send_message_markup_retry_witness :
    splitMessage ['a'] = [] ++ ['a'] :: [] ∧
      behParseFailFirst ([] : List (List Char)).length false =
        SendOutcome.err cantParseText ∧
      containsCantParse cantParseText = true ∧
      behParseFailFirst ([] : List (List Char)).length true =
        SendOutcome.ok ∧
      ((send_message behParseFailFirst (some "Markdown") ['a']).1.filter
          isRetryEv = [Event.sendEv 0 ['a'] none true] ∧
        [Event.sendEv 0 ['a'] (some "Markdown") false,
          Event.sendEv 0 ['a'] none true] <:+:
          (send_message behParseFailFirst (some "Markdown") ['a']).1 ∧
        (∀ j, j < (splitMessage ['a']).length →
          ∃ cj, Event.sendEv j cj (some "Markdown") false ∈
            (send_message behParseFailFirst (some "Markdown") ['a']).1) ∧
        (send_message behParseFailFirst (some "Markdown") ['a']).2 = true) := by
  refine ⟨by decide, by decide, by decide, by decide, ?_⟩
  exact send_message_markup_retry behParseFailFirst (some "Markdown") ['a']
    [] [] ['a'] cantParseText (by decide) (by decide) (by decide) (by decide)
    (fun j hj => by
      simp only [behParseFailFirst, List.length_nil] at hj ⊢
      rw [if_neg (by simp [hj])])

/-- Wherever a primary send succeeded for a chunk that is not the final
chunk of the message, the very next event is the 1-second sleep. -/
theorem sendChunks_pause_after_primary (beh : Nat → Bool → SendOutcome)
    (pm : Option String) (total : Nat) :
    ∀ (cs : List (List Char)) (s j : Nat) (c : List Char),
      Event.sendEv j c pm false ∈ (sendChunks beh pm total s cs).1 →
      beh j false = SendOutcome.ok → j < total - 1 →
      [Event.sendEv j c pm false, Event.sleepEv 1] <:+:
        (sendChunks beh pm total s cs).1 := by
  intro cs
  induction cs with
  | nil =>
    intro s j c hm
    rw [sendChunks] at hm
    simp at hm
  | cons c0 rest ih =>
    intro s j c hm hok hj
    rw [sendChunks] at hm ⊢
    cases hbf : beh s false with
    | ok =>
      rw [hbf] at hm
      dsimp only at hm ⊢
      rcases List.mem_cons.mp hm with h1 | h1
      · injection h1 with hi hc hp hr
        subst hi
        subst hc
        rw [if_pos hj]
        exact ⟨[], (sendChunks beh pm total (j + 1) rest).1, by simp⟩
      · rcases List.mem_append.mp h1 with h2 | h2
        · exfalso
          revert h2
          split <;> simp
        · obtain ⟨u, v, huv⟩ := ih (s + 1) j c h2 hok hj
          refine ⟨Event.sendEv s c0 pm false ::
            ((if s < total - 1 then [Event.sleepEv 1] else []) ++ u), v, ?_⟩
          have := congrArg (fun t => Event.sendEv s c0 pm false ::
            ((if s < total - 1 then [Event.sleepEv 1] else []) ++ t)) huv
          simpa [List.append_assoc] using this
    | err e =>
      rw [hbf] at hm
      dsimp only at hm ⊢
      by_cases hcp : containsCantParse e = true
      · rw [if_pos hcp] at hm ⊢
        cases hbr : beh s true with
        | ok =>
          rw [hbr] at hm
          dsimp only at hm ⊢
          rcases List.mem_cons.mp hm with h1 | h1
          · injection h1 with hi hc hp hr
            subst hi
            rw [hok] at hbf
            exact SendOutcome.noConfusion hbf
          · rcases List.mem_cons.mp h1 with h2 | h2
            · injection h2 with hi hc hp hr
              exact Bool.noConfusion hr
            · obtain ⟨u, v, huv⟩ := ih (s + 1) j c h2 hok hj
              refine ⟨Event.sendEv s c0 pm false ::
                Event.sendEv s c0 none true :: u, v, ?_⟩
              have := congrArg (fun t => Event.sendEv s c0 pm false ::
                Event.sendEv s c0 none true :: t) huv
              simpa [List.append_assoc] using this
        | err e2 =>
          rw [hbr] at hm
          dsimp only at hm
          exfalso
          rcases List.mem_cons.mp hm with h1 | h1
          · injection h1 with hi hc hp hr
            subst hi
            rw [hok] at hbf
            exact SendOutcome.noConfusion hbf
          · rcases List.mem_cons.mp h1 with h2 | h2
            · injection h2 with hi hc hp hr
              exact Bool.noConfusion hr
            · simp at h2
      · rw [if_neg hcp] at hm
        exfalso
        rcases List.mem_cons.mp hm with h1 | h1
        · injection h1 with hi hc hp hr
          subst hi
          rw [hok] at hbf
          exact SendOutcome.noConfusion hbf
        · simp at h1

/-- C8 as amended: a fixed 1-second pause occurs between consecutive chunk
sends after each non-final chunk delivered by the primary send; when a
chunk is delivered via the plain-text fallback, the next chunk is sent
without a pause (see the counterexample). -/
theorem send_message_pause_after_primary (beh : Nat → Bool → SendOutcome)
    (pm : Option String) (message : List Char) (j : Nat) (c : List Char)
    (hmem : Event.sendEv j c pm false ∈ (send_message beh pm message).1)
    (hok : beh j false = SendOutcome.ok)
    (hj : j < (splitMessage message).length - 1) :
    [Event.sendEv j c pm false, Event.sleepEv 1] <:+:
      (send_message beh pm message).1 :=
  sendChunks_pause_after_primary beh pm (splitMessage message).length
    (splitMessage message) 0 j c hmem hok hj

/-- The all-successful delivery of the two-chunk message `a`*4097: one
sleep between the two sends. -/
theorem send_message_allok_rep4097 :
    send_message behAllOk (some "Markdown") (List.replicate 4097 'a') =
      ([Event.sendEv 0 (List.replicate 3996 'a') (some "Markdown") false,
        Event.sleepEv 1,
        Event.sendEv 1 (List.replicate 101 'a') (some "Markdown") false],
        true) := by
  unfold send_message
  rw [splitMessage_rep4097]
  rw [sendChunks]
  dsimp only [behAllOk]
  rw [if_pos (by norm_num)]
  rw [sendChunks]
  dsimp only [behAllOk]
  rw [if_neg (by norm_num)]
  rw [sendChunks]
  rfl

/-- Witness for the amended C8: in the all-successful two-chunk run, the
first (primary-delivered, non-final) chunk is followed by the pause. -/
theorem send_message_pause_after_primary_witness :
    (Event.sendEv 0 (List.replicate 3996 'a') (some "Markdown") false ∈
        (send_message behAllOk (some "Markdown")
          (List.replicate 4097 'a')).1) ∧
      behAllOk 0 false = SendOutcome.ok ∧
      0 < (splitMessage (List.replicate 4097 'a')).length - 1 ∧
      [Event.sendEv 0 (List.replicate 3996 'a') (some "Markdown") false,
        Event.sleepEv 1] <:+:
        (send_message behAllOk (some "Markdown")
          (List.replicate 4097 'a')).1 := by
  refine ⟨?_, rfl, ?_, ?_⟩
  · rw [send_message_allok_rep4097]
    exact List.mem_cons_self _ _
  · rw [splitMessage_rep4097]
    norm_num
  · exact send_message_pause_after_primary behAllOk (some "Markdown")
      (List.replicate 4097 'a') 0 (List.replicate 3996 'a')
      (by rw [send_message_allok_rep4097]; exact List.mem_cons_self _ _) rfl
      (by rw [splitMessage_rep4097]; norm_num)

/-- Counterexample to C8 as stated: for the two-chunk message `a`*4097 and
a transport whose primary send of chunk 0 fails with a markup-parse error,
chunk 0 is delivered via the plain-text fallback and chunk 1 is sent
immediately afterwards — the run contains no sleep at all, although chunk
0 is a non-final chunk. -/
theorem send_message_no_pause_after_fallback_cex :
    (send_message behParseFailFirst (some "Markdown")
        (List.replicate 4097 'a')).1 =
      [Event.sendEv 0 (List.replicate 3996 'a') (some "Markdown") false,
        Event.sendEv 0 (List.replicate 3996 'a') none true,
        Event.sendEv 1 (List.replicate 101 'a') (some "Markdown") false] ∧
      Event.sleepEv 1 ∉
        (send_message behParseFailFirst (some "Markdown")
          (List.replicate 4097 'a')).1 ∧
      (send_message behParseFailFirst (some "Markdown")
        (List.replicate 4097 'a')).2 = true := by
  have htr : send_message behParseFailFirst (some "Markdown")
      (List.replicate 4097 'a') =
      ([Event.sendEv 0 (List.replicate 3996 'a') (some "Markdown") false,
        Event.sendEv 0 (List.replicate 3996 'a') none true,
        Event.sendEv 1 (List.replicate 101 'a') (some "Markdown") false],
        true) := by
    unfold send_message
    rw [splitMessage_rep4097]
    rw [sendChunks]
    rw [show behParseFailFirst 0 false = SendOutcome.err cantParseText by
      decide]
    dsimp only
    rw [if_pos (by decide)]
    rw [show behParseFailFirst 0 true = SendOutcome.ok by decide]
    dsimp only
    rw [sendChunks]
    rw [show behParseFailFirst 1 false = SendOutcome.ok by decide]
    dsimp only
    rw [if_neg (by norm_num)]
    rw [sendChunks]
    rfl
  rw [htr]
  refine ⟨rfl, ?_, rfl⟩
  intro h
  rcases List.mem_cons.mp h with h1 | h1
  · exact Event.noConfusion h1
  · rcases List.mem_cons.mp h1 with h2 | h2
    · exact Event.noConfusion h2
    · rcases List.mem_cons.mp h2 with h3 | h3
      · exact Event.noConfusion h3
      · simp at h3

/-- C9: an exception from the orchestration call is converted into a
`failure` record carrying the exception's message and is never re-raised
(the wrappers are total functions); in every outcome the record has a
status and, provided the wall clock did not go backwards between the two
readings, a non-negative `execution_time_seconds`. -/
theorem execute_failure_handling (nowId : Int) (start finish : ℚ)
    (kickoff : Except String String) (h : start ≤ finish) :
    (∀ e, kickoff = Except.error e →
      (execute nowId start finish kickoff).status = "failure" ∧
        (execute nowId start finish kickoff).error =
          some ("Crew execution failed: " ++ e) ∧
        (execute_async nowId start finish kickoff).status = "failure" ∧
        (execute_async nowId start finish kickoff).error =
          some ("Async crew execution failed: " ++ e)) ∧
      ((execute nowId start finish kickoff).status = "success" ∨
        (execute nowId start finish kickoff).status = "failure") ∧
      ((execute_async nowId start finish kickoff).status = "success" ∨
        (execute_async nowId start finish kickoff).status = "failure") ∧
      0 ≤ (execute nowId start finish kickoff).execution_time_seconds ∧
      0 ≤ (execute_async nowId start finish kickoff).execution_time_seconds := by
  cases kickoff with
  | ok r => simp [execute, execute_async, sub_nonneg, h]
  | error e => simp [execute, execute_async, sub_nonneg, h]

/-- Witness for C9 at a failing kickoff with clock readings 0 and 1. -/
theorem execute_failure_handling_witness :
    (0 : ℚ) ≤ 1 ∧
      ((∀ e, (Except.error "boom" : Except String String) =
            Except.error e →
          (execute 0 0 1 (Except.error "boom")).status = "failure" ∧
            (execute 0 0 1 (Except.error "boom")).error =
              some ("Crew execution failed: " ++ e) ∧
            (execute_async 0 0 1 (Except.error "boom")).status = "failure" ∧
            (execute_async 0 0 1 (Except.error "boom")).error =
              some ("Async crew execution failed: " ++ e)) ∧
        ((execute 0 0 1 (Except.error "boom")).status = "success" ∨
          (execute 0 0 1 (Except.error "boom")).status = "failure") ∧
        ((execute_async 0 0 1 (Except.error "boom")).status = "success" ∨
          (execute_async 0 0 1 (Except.error "boom")).status = "failure") ∧
        0 ≤ (execute 0 0 1 (Except.error "boom")).execution_time_seconds ∧
        0 ≤ (execute_async 0 0 1
            (Except.error "boom")).execution_time_seconds) :=
  ⟨by norm_num,
    execute_failure_handling 0 0 1 (Except.error "boom") (by norm_num)⟩

/-- C10: every record produced by the wrappers has status `success` or
`failure` (never the documented `partial`); `failure` comes with a set
error and an empty report, `success` with no error. -/
theorem execute_status_invariant (nowId : Int) (start finish : ℚ)
    (kickoff : Except String String) :
    (((execute nowId start finish kickoff).status = "success" ∨
        (execute nowId start finish kickoff).status = "failure") ∧
      (execute nowId start finish kickoff).status ≠ "partial" ∧
      ((execute nowId start finish kickoff).status = "failure" →
        (execute nowId start finish kickoff).error ≠ none ∧
          (execute nowId start finish kickoff).report = "") ∧
      ((execute nowId start finish kickoff).status = "success" →
        (execute nowId start finish kickoff).error = none)) ∧
      (((execute_async nowId start finish kickoff).status = "success" ∨
        (execute_async nowId start finish kickoff).status = "failure") ∧
      (execute_async nowId start finish kickoff).status ≠ "partial" ∧
      ((execute_async nowId start finish kickoff).status = "failure" →
        (execute_async nowId start finish kickoff).error ≠ none ∧
          (execute_async nowId start finish kickoff).report = "") ∧
      ((execute_async nowId start finish kickoff).status = "success" →
        (execute_async nowId start finish kickoff).error = none)) := by
  cases kickoff with
  | ok r => simp [execute, execute_async]
  | error e => simp [execute, execute_async]

end LLMAgent
